import Mathlib

/-!
Shallow embedding of the `chain` stream-processing library (chain.go).

A Go channel is modelled as the finite list of elements its producer
writes before closing it.  Goroutine scheduling nondeterminism (the
`select` in Collect, the interleaving of the N workers of a parallel
Map/Filter stage) is made explicit as a schedule parameter: theorems
quantify over all schedules.
-/

/-- The string-backed error type of the library: `type Error string`. -/
structure GoError where
  msg : String
deriving DecidableEq, Repr

/-- Go declaration `var ErrEmptyStream = Error("empty stream")` (chain.go). -/
def ErrEmptyStream : GoError := ⟨"empty stream"⟩

/-- The error reported by `ctx.Err()` once a Go context is done:
`context.Canceled` or `context.DeadlineExceeded`. -/
inductive CtxError
  | canceled
  | deadlineExceeded
deriving DecidableEq, Repr

/-- The `stream[T, R]` struct: the current source channel (as the list of
elements it will carry before close) plus the worker count (a Go `int`).
The phantom result-type parameter `R` of the Go struct plays no role in
the dynamics and is dropped. -/
structure stream (T : Type) where
  source : List T
  workers : Int
deriving DecidableEq, Repr

/-- Constructor `NewSliceStream` (chain.go 38-47): the producer goroutine writes each
slice element in order into the channel and closes it; workers start at 1. -/
def NewSliceStream {T : Type} (data : List T) : stream T :=
  { source := data, workers := 1 }

/-- The sequential (workers == 1) loop of Map:
`for item := range s.source { out <- fn(item) }`. -/
def mapSeq {T R : Type} (fn : T → R) : List T → List R
  | [] => []
  | x :: xs => fn x :: mapSeq fn xs

/-- The sequential (workers == 1) loop of Filter:
`for item := range s.source { if fn(item) { out <- item } }`. -/
def filterSeq {T : Type} (fn : T → Bool) : List T → List T
  | [] => []
  | x :: xs => if fn x then x :: filterSeq fn xs else filterSeq fn xs

/-- One scheduler decision inside a parallel Map/Filter stage:
`PAction.take w` is worker `w` receiving the next element from the shared
upstream channel, `PAction.put w` is worker `w` finishing its received
element (sending the transformed element downstream for Map, sending or
discarding it for Filter). -/
inductive PAction
  | take (w : Nat)
  | put (w : Nat)
deriving DecidableEq, Repr

/-- Worker-pool semantics of the `workers > 1` branch shared by Map and
Filter (chain.go 76-88 and 110-124).  `emit` is `fun t => some (fn t)`
for Map and `fun t => if fn t then some t else none` for Filter.
`held` has one slot per worker holding the element that worker has
received but not yet finished.  The run yields `some out` (the content
of the downstream channel at close) only when upstream is drained and
every worker is idle — the `wg.Wait()` barrier that precedes
`close(out)`; `none` models a schedule that is invalid or has not
reached the close. -/
def parRun {T R : Type} (emit : T → Option R) :
    List PAction → List T → List (Option T) → List R → Option (List R)
  | [], up, held, out =>
    if up.isEmpty && held.all Option.isNone then some out else none
  | PAction.take w :: rest, up, held, out =>
    match held[w]?, up with
    | some none, x :: xs => parRun emit rest xs (held.set w (some x)) out
    | _, _ => none
  | PAction.put w :: rest, up, held, out =>
    match held[w]? with
    | some (some t) => parRun emit rest up (held.set w none) (out ++ (emit t).toList)
    | _ => none

/-- Stage `Map` (chain.go 62-91): always allocates a fresh downstream channel.
With workers == 1 a single goroutine maps in arrival order; otherwise
`s.workers` goroutines share upstream and downstream, and the downstream
content depends on the schedule `sched` (`none`: the schedule does not
reach the close of the downstream channel). -/
def stream.Map {T R : Type} (s : stream T) (fn : T → R) (sched : List PAction) :
    Option (stream R) :=
  if s.workers = 1 then
    some { source := mapSeq fn s.source, workers := s.workers }
  else
    (parRun (fun t => some (fn t)) sched s.source
        (List.replicate s.workers.toNat none) []).map
      (fun out => { source := out, workers := s.workers })

/-- Stage `Filter` (chain.go 94-127): same shape as Map, keeping only elements
accepted by the predicate. -/
def stream.Filter {T : Type} (s : stream T) (fn : T → Bool) (sched : List PAction) :
    Option (stream T) :=
  if s.workers = 1 then
    some { source := filterSeq fn s.source, workers := s.workers }
  else
    (parRun (fun t => if fn t then some t else none) sched s.source
        (List.replicate s.workers.toNat none) []).map
      (fun out => { source := out, workers := s.workers })

/-- The fold loop of Reduce (chain.go 134-142): `result` and `first`
track the two mutable locals across the `range` loop. -/
def reduceLoop {T : Type} (fn : T → T → T) (result : T) (first : Bool) :
    List T → T × Bool
  | [] => (result, first)
  | x :: xs =>
    if first then reduceLoop fn x false xs
    else reduceLoop fn (fn result x) false xs

/-- Terminal `Reduce` (chain.go 130-147).  `zero` is the Go zero value of `T`
produced by `var result T`; on an empty source the code returns it
together with `ErrEmptyStream`. -/
def stream.Reduce {T : Type} (s : stream T) (zero : T) (fn : T → T → T) :
    T × Option GoError :=
  let rb := reduceLoop fn zero true s.source
  if rb.2 then (rb.1, some ErrEmptyStream) else (rb.1, none)

/-- The drain loop of ForEach: the side effect of `fn` on ambient state
is made explicit as a state transformer applied once per element. -/
def forEachLoop {T St : Type} (fn : T → St → St) : List T → St → St
  | [], st => st
  | x :: xs, st => forEachLoop fn xs (fn x st)

/-- Terminal `ForEach` (chain.go 150-155): drains the channel applying `fn` to
each element in arrival order, then returns `nil` unconditionally. -/
def stream.ForEach {T St : Type} (s : stream T) (fn : T → St → St) (st : St) :
    St × Option GoError :=
  (forEachLoop fn s.source st, none)

/-- One iteration of the `select` in Collect: `recv` takes the channel
case (receiving an element, or observing the close), `cancel` takes the
`ctx.Done()` case, `sleep` takes the default branch (the 1ms sleep). -/
inductive CEvent
  | recv
  | cancel
  | sleep
deriving DecidableEq, Repr

/-- The polling loop of Collect (chain.go 158-175), driven by the list of
select outcomes.  `remaining` is what the source channel still carries,
`acc` the `result` slice built so far.  Receiving on the closed channel
returns `(result, nil)`; the cancellation branch returns the nil slice
(modelled as `[]`) with `ctx.Err()`, discarding `acc`.  `none`: the
schedule ran out before the loop returned. -/
def collectRun {T : Type} (ce : CtxError) :
    List CEvent → List T → List T → Option (List T × Option CtxError)
  | [], _, _ => none
  | CEvent.recv :: rest, remaining, acc =>
    match remaining with
    | [] => some (acc, none)
    | x :: xs => collectRun ce rest xs (acc ++ [x])
  | CEvent.cancel :: _, _, _ => some ([], some ce)
  | CEvent.sleep :: rest, remaining, acc => collectRun ce rest remaining acc

/-- Terminal `Collect` (chain.go 158-175), given the error the context would
report and a schedule of select outcomes. -/
def stream.Collect {T : Type} (s : stream T) (ce : CtxError) (sched : List CEvent) :
    Option (List T × Option CtxError) :=
  collectRun ce sched s.source []

/-- Configuration `Parallel` (chain.go 178-184): coerces a non-positive worker count to
1, stores it on the same stream and returns that stream (in-place
mutation of the configuration; the channel is untouched). -/
def stream.Parallel {T : Type} (s : stream T) (w : Int) : stream T :=
  if w ≤ 0 then { s with workers := 1 } else { s with workers := w }

/-- The results of the first `n` calls of a generator.  The Go generator
is a closure `func() (T, bool)`; its hidden state is made explicit, so a
generator is a step function `St → T × Bool × St` plus an initial state. -/
def callSeq {T St : Type} (step : St → T × Bool × St) : Nat → St → List (T × Bool)
  | 0, _ => []
  | n + 1, st => ((step st).1, (step st).2.1) :: callSeq step n (step st).2.2

/-- The producer loop of `Generator` (chain.go 189-202): call the
generator; on `ok` send the item and loop, otherwise return (closing the
channel).  The second component counts generator invocations; `fuel`
bounds how many iterations are examined and `none` means the loop has
not terminated within `fuel` calls. -/
def genRun {T St : Type} (step : St → T × Bool × St) : Nat → St → Option (List T × Nat)
  | 0, _ => none
  | fuel + 1, st =>
    let c := step st
    if c.2.1 then (genRun step fuel c.2.2).map (fun p => (c.1 :: p.1, p.2 + 1))
    else some ([], 1)

/-- Constructor `Generator` (chain.go 189-202): the stream whose channel carries the
elements emitted by the producer loop, workers initialized to 1. -/
def Generator {T St : Type} (step : St → T × Bool × St) (fuel : Nat) (init : St) :
    Option (stream T) :=
  (genRun step fuel init).map (fun p => { source := p.1, workers := 1 })

/-! ## Helper lemmas -/

/-- The sequential Map loop computes List.map. -/
theorem mapSeq_eq_map {T R : Type} (fn : T → R) :
    ∀ l : List T, mapSeq fn l = l.map fn
  | [] => rfl
  | x :: xs => by simp [mapSeq, mapSeq_eq_map fn xs]

/-- The sequential Filter loop computes List.filter. -/
theorem filterSeq_eq_filter {T : Type} (fn : T → Bool) :
    ∀ l : List T, filterSeq fn l = l.filter fn
  | [] => rfl
  | x :: xs => by
    simp only [filterSeq, filterSeq_eq_filter fn xs, List.filter]
    cases fn x <;> simp

/-- The Reduce loop with `first = false` is a left fold that never sets
`first` again. -/
theorem reduceLoop_false {T : Type} (fn : T → T → T) :
    ∀ (l : List T) (r : T), reduceLoop fn r false l = (List.foldl fn r l, false)
  | [], r => rfl
  | x :: xs, r => by simp [reduceLoop, List.foldl, reduceLoop_false fn xs (fn r x)]

/-- The ForEach loop is a left fold of the state transformer. -/
theorem forEachLoop_eq_foldl {T St : Type} (fn : T → St → St) :
    ∀ (l : List T) (st : St),
      forEachLoop fn l st = List.foldl (fun a x => fn x a) st l
  | [], st => rfl
  | x :: xs, st => by simp [forEachLoop, List.foldl, forEachLoop_eq_foldl fn xs (fn x st)]

/-! ## Claims about the terminal operations Reduce, ForEach and Parallel -/

/-- C3: Reduce fails with the EmptyStream error exactly on the empty
source — an empty source returns the zero value of the element type
alongside `ErrEmptyStream`, and any non-empty source returns a nil
error. -/
theorem reduce_empty_stream_error {T : Type} (w : Int) (zero x : T) (xs : List T)
    (fn : T → T → T) :
    stream.Reduce { source := [], workers := w } zero fn = (zero, some ErrEmptyStream)
    ∧ (stream.Reduce { source := x :: xs, workers := w } zero fn).2 = none := by
  constructor
  · rfl
  · simp [stream.Reduce, reduceLoop, reduceLoop_false]

/-- C4: on a non-empty source `x :: xs`, Reduce returns the left fold of
`fn` with the first arrival `x` as initial accumulator; a singleton
source returns its element with no error, and the singleton result does
not depend on the fold function at all (fn is never invoked). -/
theorem reduce_foldl_arrival {T : Type} (w : Int) (zero x : T) (xs : List T)
    (fn fn' : T → T → T) :
    (stream.Reduce { source := x :: xs, workers := w } zero fn).1 = List.foldl fn x xs
    ∧ stream.Reduce { source := [x], workers := w } zero fn = (x, none)
    ∧ stream.Reduce { source := [x], workers := w } zero fn
        = stream.Reduce { source := [x], workers := w } zero fn' := by
  refine ⟨?_, ?_, ?_⟩
  · simp [stream.Reduce, reduceLoop, reduceLoop_false]
  · simp [stream.Reduce, reduceLoop, reduceLoop_false]
  · rfl

/-- C9: ForEach applies the side-effecting function exactly once per
element in arrival order (the final state is the left fold of the
effects over the source) and always returns a nil error, the empty
source included. -/
theorem foreach_always_succeeds {T St : Type} (s : stream T) (fn : T → St → St)
    (st : St) :
    stream.ForEach s fn st = (List.foldl (fun a x => fn x a) st s.source, none) := by
  simp [stream.ForEach, forEachLoop_eq_foldl]

/-- C7: Parallel coerces a non-positive worker count to 1 and otherwise
stores the requested count, and it leaves the source channel of the
stream unchanged (in-place reconfiguration, no new channel). -/
theorem parallel_coerces_and_preserves_channel {T : Type} (s : stream T) (w : Int) :
    (stream.Parallel s w).workers = (if w ≤ 0 then 1 else w)
    ∧ (stream.Parallel s w).source = s.source := by
  constructor <;> · simp only [stream.Parallel]; split <;> rfl

/-! ## Collect: drain and cancellation lemmas -/

/-- A cancel-free schedule that returns did a plain drain: the result is
the accumulator followed by everything the channel still carried, with a
nil error. -/
theorem collectRun_no_cancel {T : Type} (ce : CtxError) :
    ∀ (sched : List CEvent) (remaining acc r : List T) (e : Option CtxError),
      CEvent.cancel ∉ sched →
      collectRun ce sched remaining acc = some (r, e) →
      r = acc ++ remaining ∧ e = none := by
  intro sched
  induction sched with
  | nil => intro remaining acc r e _ h; simp [collectRun] at h
  | cons ev rest ih =>
    intro remaining acc r e hnc h
    have hnc2 : CEvent.cancel ∉ rest := fun hm => hnc (List.mem_cons_of_mem _ hm)
    cases ev with
    | recv =>
      cases remaining with
      | nil =>
        simp [collectRun] at h
        simp [h.1.symm, h.2.symm]
      | cons x xs =>
        have := ih xs (acc ++ [x]) r e hnc2 (by simpa [collectRun] using h)
        simpa using this
    | cancel => exact absurd (List.mem_cons_self _ _) hnc
    | sleep => exact ih remaining acc r e hnc2 (by simpa [collectRun] using h)

/-- If a prefix of the schedule has not completed the drain, reaching the
cancellation branch next returns the nil slice with the context error. -/
theorem collectRun_cancel_of_incomplete {T : Type} (ce : CtxError) :
    ∀ (pre rest : List CEvent) (remaining acc : List T),
      collectRun ce pre remaining acc = none →
      collectRun ce (pre ++ CEvent.cancel :: rest) remaining acc = some ([], some ce) := by
  intro pre
  induction pre with
  | nil => intro rest remaining acc _; simp [collectRun]
  | cons ev pre2 ih =>
    intro rest remaining acc h
    cases ev with
    | recv =>
      cases remaining with
      | nil => simp [collectRun] at h
      | cons x xs =>
        simp only [collectRun] at h ⊢
        exact ih rest xs (acc ++ [x]) h
    | cancel => simp [collectRun] at h
    | sleep =>
      simp only [collectRun] at h ⊢
      exact ih rest remaining acc h

/-! ## Claims about Map, Filter and Collect pipelines (workers = 1) -/

/-- C1: building a stream from a slice S, applying Map with worker count
1, and collecting under a never-cancelled context (a schedule which
never observes ctx.Done and which reaches the return) yields exactly
`List.map f S`, in the order of S, with a nil error. -/
theorem map_slice_collect_ordered {T R : Type} (S : List T) (f : T → R)
    (msched : List PAction) (c : stream R) (ce : CtxError) (sched : List CEvent)
    (r : List R) (e : Option CtxError)
    (hmap : stream.Map (NewSliceStream S) f msched = some c)
    (hnc : CEvent.cancel ∉ sched)
    (hcol : stream.Collect c ce sched = some (r, e)) :
    r = S.map f ∧ e = none := by
  have hc : c = { source := mapSeq f S, workers := 1 } := by
    simpa [stream.Map, NewSliceStream] using hmap.symm
  subst hc
  have := collectRun_no_cancel ce sched (mapSeq f S) [] r e hnc hcol
  simpa [mapSeq_eq_map] using this

/-- Witness for C1 at S = [1, 2, 3], f = double, schedule recv×4. -/
theorem map_slice_collect_ordered_witness :
    ([2, 4, 6] : List Nat) = ([1, 2, 3] : List Nat).map (fun n => n * 2)
    ∧ (none : Option CtxError) = none :=
  map_slice_collect_ordered [1, 2, 3] (fun n => n * 2) []
    { source := [2, 4, 6], workers := 1 } CtxError.canceled
    [CEvent.recv, CEvent.recv, CEvent.recv, CEvent.recv] [2, 4, 6] none
    (by decide) (by decide) (by decide)

/-- C5: building a stream from a slice S, applying Filter with worker
count 1, and collecting under a never-cancelled context yields exactly
the order-preserving subsequence `List.filter p S`, with a nil error. -/
theorem filter_slice_collect_subseq {T : Type} (S : List T) (p : T → Bool)
    (fsched : List PAction) (c : stream T) (ce : CtxError) (sched : List CEvent)
    (r : List T) (e : Option CtxError)
    (hfil : stream.Filter (NewSliceStream S) p fsched = some c)
    (hnc : CEvent.cancel ∉ sched)
    (hcol : stream.Collect c ce sched = some (r, e)) :
    r = S.filter p ∧ e = none := by
  have hc : c = { source := filterSeq p S, workers := 1 } := by
    simpa [stream.Filter, NewSliceStream] using hfil.symm
  subst hc
  have := collectRun_no_cancel ce sched (filterSeq p S) [] r e hnc hcol
  simpa [filterSeq_eq_filter] using this

/-- Witness for C5 at S = [1, 2, 3, 4], p = even, schedule recv×3. -/
theorem filter_slice_collect_subseq_witness :
    ([2, 4] : List Nat) = ([1, 2, 3, 4] : List Nat).filter (fun n => n % 2 == 0)
    ∧ (none : Option CtxError) = none :=
  filter_slice_collect_subseq [1, 2, 3, 4] (fun n => n % 2 == 0) []
    { source := [2, 4], workers := 1 } CtxError.deadlineExceeded
    [CEvent.recv, CEvent.recv, CEvent.recv] [2, 4] none
    (by decide) (by decide) (by decide)

/-- C2: for every source, when the cancellation branch of the select is
observed before the drain has completed (the schedule prefix `pre` did
not reach a return), Collect returns the context error — Canceled or
DeadlineExceeded — together with the nil slice, not the partially
accumulated elements. -/
theorem collect_cancel_nil_result {T : Type} (s : stream T) (ce : CtxError)
    (pre rest : List CEvent)
    (hpre : stream.Collect s ce pre = none) :
    stream.Collect s ce (pre ++ CEvent.cancel :: rest) = some ([], some ce)
    ∧ (ce = CtxError.canceled ∨ ce = CtxError.deadlineExceeded) := by
  refine ⟨collectRun_cancel_of_incomplete ce pre rest s.source [] hpre, ?_⟩
  cases ce
  · exact Or.inl rfl
  · exact Or.inr rfl

/-- Witness for C2: two elements remain, one is received, then the
cancellation fires: the received element is discarded. -/
theorem collect_cancel_nil_result_witness :
    stream.Collect (NewSliceStream ([5, 6] : List Nat)) CtxError.canceled
        ([CEvent.recv] ++ CEvent.cancel :: [])
      = some ([], some CtxError.canceled)
    ∧ (CtxError.canceled = CtxError.canceled
        ∨ CtxError.canceled = CtxError.deadlineExceeded) :=
  collect_cancel_nil_result (NewSliceStream [5, 6]) CtxError.canceled
    [CEvent.recv] [] (by decide)

/-- C10: when the cancellation signal is never observed and the source
closes after yielding zero elements, Collect succeeds: it returns the
nil slice together with a nil error. -/
theorem collect_empty_source_ok {T : Type} (s : stream T) (ce : CtxError)
    (sched : List CEvent) (r : List T) (e : Option CtxError)
    (hs : s.source = [])
    (hnc : CEvent.cancel ∉ sched)
    (h : stream.Collect s ce sched = some (r, e)) :
    r = [] ∧ e = none := by
  rw [stream.Collect, hs] at h
  simpa using collectRun_no_cancel ce sched [] [] r e hnc h

/-- Witness for C10 at the empty slice stream. -/
theorem collect_empty_source_ok_witness :
    ([] : List Nat) = [] ∧ (none : Option CtxError) = none :=
  collect_empty_source_ok (NewSliceStream ([] : List Nat)) CtxError.canceled
    [CEvent.sleep, CEvent.recv] [] none (by decide) (by decide) (by decide)

/-! ## Generator lemmas -/

/-- The first n generator calls give n results. -/
theorem callSeq_length {T St : Type} (step : St → T × Bool × St) :
    ∀ (n : Nat) (st : St), (callSeq step n st).length = n
  | 0, _ => rfl
  | n + 1, st => by simp [callSeq, callSeq_length step n]

/-- A generator whose first k calls report ok and whose call k + 1
reports exhaustion makes the producer loop emit exactly the first k
values, in call order, using exactly k + 1 invocations, for any fuel
that covers those calls. -/
theorem genRun_exact {T St : Type} (step : St → T × Bool × St) :
    ∀ (k : Nat) (st : St) (fuel : Nat),
      (callSeq step (k + 1) st).map Prod.snd = List.replicate k true ++ [false] →
      k + 1 ≤ fuel →
      genRun step fuel st = some ((callSeq step k st).map Prod.fst, k + 1) := by
  intro k
  induction k with
  | zero =>
    intro st fuel hk hf
    cases fuel with
    | zero => exact absurd hf (by omega)
    | succ f =>
      simp [callSeq] at hk
      simp [genRun, callSeq, hk]
  | succ k2 ih =>
    intro st fuel hk hf
    cases fuel with
    | zero => exact absurd hf (by omega)
    | succ f =>
      simp only [callSeq, List.map_cons, List.replicate_succ, List.cons_append,
        List.cons.injEq] at hk
      obtain ⟨h1, h2⟩ := hk
      have hrec := ih (step st).2.2 f h2 (by omega)
      simp [genRun, h1, hrec, callSeq]

/-- C8: a generator that yields exactly k values before reporting
exhaustion produces a stream that collects (never cancelled) to exactly
those k values in generator-call order; the producer invokes the
generator exactly k + 1 times (stopping at the first false), and the
value returned alongside the false flag is never emitted. -/
theorem generator_collect_k_elements {T St : Type} (step : St → T × Bool × St)
    (init : St) (k fuel calls : Nat) (vals : List T) (g : stream T) (ce : CtxError)
    (sched : List CEvent) (r : List T) (e : Option CtxError)
    (hk : (callSeq step (k + 1) init).map Prod.snd = List.replicate k true ++ [false])
    (hfuel : k + 1 ≤ fuel)
    (hrun : genRun step fuel init = some (vals, calls))
    (hg : Generator step fuel init = some g)
    (hnc : CEvent.cancel ∉ sched)
    (hcol : stream.Collect g ce sched = some (r, e)) :
    r = (callSeq step k init).map Prod.fst ∧ r.length = k ∧ calls = k + 1
    ∧ e = none := by
  have hx := genRun_exact step k init fuel hk hfuel
  rw [hrun] at hx
  have hvals : vals = (callSeq step k init).map Prod.fst := by
    simpa using congrArg (fun p => (Option.map Prod.fst p).getD []) hx
  have hcalls : calls = k + 1 := by
    simpa using congrArg (fun p => (Option.map Prod.snd p).getD 0) hx
  have hgv : g = { source := vals, workers := 1 } := by
    rw [Generator, hrun] at hg
    simpa using hg.symm
  subst hgv
  have hdrain := collectRun_no_cancel ce sched vals [] r e hnc hcol
  refine ⟨?_, ?_, hcalls, hdrain.2⟩
  · rw [hdrain.1, hvals]; simp
  · rw [hdrain.1, hvals]; simp [callSeq_length]

/-- Witness for C8: the generator counts 0, 1, 2 then reports
exhaustion with value 99, which is never emitted. -/
theorem generator_collect_k_elements_witness :
    ([0, 1, 2] : List Nat)
        = (callSeq (fun n => if n < 3 then (n, true, n + 1) else (99, false, n)) 3 0).map
            Prod.fst
    ∧ ([0, 1, 2] : List Nat).length = 3 ∧ 4 = 3 + 1
    ∧ (none : Option CtxError) = none :=
  generator_collect_k_elements
    (fun n => if n < 3 then (n, true, n + 1) else (99, false, n)) 0 3 4 4 [0, 1, 2]
    { source := [0, 1, 2], workers := 1 } CtxError.canceled
    [CEvent.recv, CEvent.recv, CEvent.recv, CEvent.recv] [0, 1, 2] none
    (by decide) (by decide) (by decide) (by decide) (by decide) (by decide)

/-! ## Worker-pool multiset lemmas -/

/-- A fully idle held table contributes no elements. -/
theorem filterMap_id_all_none {T : Type} (l : List (Option T))
    (h : l.all Option.isNone = true) : l.filterMap id = [] := by
  rw [List.filterMap_eq_nil_iff]
  intro a ha
  simpa [Option.isNone_iff_eq_none] using List.all_eq_true.mp h a ha

/-- The held slots of the all-idle initial pool are empty. -/
theorem filterMap_id_replicate_none {T : Type} :
    ∀ n : Nat, (List.replicate n (none : Option T)).filterMap id = []
  | 0 => rfl
  | n + 1 => by
    simp [List.replicate_succ, List.filterMap_cons, filterMap_id_replicate_none n]

/-- filterMap over a cons, with the head contribution as a toList. -/
theorem coe_filterMap_cons {T R : Type} (f : T → Option R) (x : T) (l : List T) :
    ((x :: l).filterMap f : Multiset R) = ↑(f x).toList + ↑(l.filterMap f) := by
  cases h : f x <;> simp [List.filterMap_cons, h]

/-- filterMap id over a cons of options, as multisets. -/
theorem coe_filterMap_id_cons {T : Type} (c : Option T) (ls : List (Option T)) :
    ((c :: ls).filterMap id : Multiset T) = ↑c.toList + ↑(ls.filterMap id) := by
  cases c <;> simp [List.filterMap_cons]

/-- Equal multisets stay equal under filterMap. -/
theorem coe_filterMap_congr {T R : Type} (f : T → Option R) (l1 l2 : List T)
    (h : (l1 : Multiset T) = ↑l2) :
    ((l1.filterMap f : List R) : Multiset R) = ↑(l2.filterMap f) :=
  Multiset.coe_eq_coe.mpr ((Multiset.coe_eq_coe.mp h).filterMap f)

/-- Updating one slot of the held table exchanges the old entry for the
new one, as multisets of held elements. -/
theorem filterMap_set_multiset {T : Type} :
    ∀ (l : List (Option T)) (w : Nat) (a b : Option T),
      l[w]? = some a →
      ((l.set w b).filterMap id : Multiset T) + ↑a.toList
        = ↑(l.filterMap id) + ↑b.toList := by
  intro l
  induction l with
  | nil => intro w a b h; simp at h
  | cons c ls ih =>
    intro w a b h
    cases w with
    | zero =>
      simp only [List.getElem?_cons_zero] at h
      obtain rfl : c = a := by injection h
      simp only [List.set, coe_filterMap_id_cons]
      abel
    | succ w2 =>
      simp only [List.getElem?_cons_succ] at h
      simp only [List.set, coe_filterMap_id_cons]
      rw [add_assoc, add_assoc, ih w2 a b h]

/-- From the held-table exchange lemma: finishing held element t moves
its emission from the held account to the output account. -/
theorem coe_filterMap_of_exchange {T R : Type} (emit : T → Option R)
    (l1 l2 : List T) (x : T) (h : (l1 : Multiset T) = ↑l2 + ↑[x]) :
    ((l1.filterMap emit : List R) : Multiset R)
      = ↑(l2.filterMap emit) + ↑(emit x).toList := by
  have h2 : (l1 : Multiset T) = ↑(l2 ++ [x]) := by
    rw [h]; exact_mod_cast rfl
  have h3 := coe_filterMap_congr emit l1 (l2 ++ [x]) h2
  rw [List.filterMap_append] at h3
  have h4 : ([x].filterMap emit) = (emit x).toList := by
    cases hx : emit x <;> simp [List.filterMap_cons, hx]
  rw [h3, h4]
  exact_mod_cast rfl

/-- Invariant of the worker pool: whenever a schedule completes (the
downstream channel is closed, necessarily with upstream drained and all
workers idle), the multiset of downstream elements equals the output so
far plus what the held elements and the remaining upstream elements
would emit.  Every upstream element is processed exactly once: nothing
is lost or duplicated. -/
theorem parRun_multiset {T R : Type} (emit : T → Option R) :
    ∀ (acts : List PAction) (up : List T) (held : List (Option T)) (out res : List R),
      parRun emit acts up held out = some res →
      (res : Multiset R)
        = ↑out + ↑((held.filterMap id).filterMap emit) + ↑(up.filterMap emit) := by
  intro acts
  induction acts with
  | nil =>
    intro up held out res h
    simp only [parRun] at h
    split at h
    · next hc =>
      rw [Bool.and_eq_true] at hc
      obtain ⟨he, ha⟩ := hc
      obtain rfl : up = [] := List.isEmpty_iff.mp he
      obtain rfl : out = res := by injection h
      simp [filterMap_id_all_none held ha]
    · exact absurd h (by simp)
  | cons a rest ih =>
    intro up held out res h
    cases a with
    | take w =>
      cases hw : held[w]? with
      | none => simp [parRun, hw] at h
      | some o =>
        cases o with
        | some t => simp [parRun, hw] at h
        | none =>
          cases up with
          | nil => simp [parRun, hw] at h
          | cons x xs =>
            simp only [parRun, hw] at h
            have hres := ih xs (held.set w (some x)) out res h
            have hset := filterMap_set_multiset held w none (some x) hw
            simp only [Option.toList_none, Option.toList_some, Multiset.coe_nil,
              add_zero] at hset
            have hset2 : ((held.set w (some x)).filterMap id : Multiset T)
                = ↑(held.filterMap id) + ↑[x] := hset
            have hheld := coe_filterMap_of_exchange emit _ _ x hset2
            rw [hres, hheld, coe_filterMap_cons emit x xs]
            abel
    | put w =>
      cases hw : held[w]? with
      | none => simp [parRun, hw] at h
      | some o =>
        cases o with
        | none => simp [parRun, hw] at h
        | some t =>
          simp only [parRun, hw] at h
          have hres := ih up (held.set w none) (out ++ (emit t).toList) res h
          have hset := filterMap_set_multiset held w (some t) none hw
          simp only [Option.toList_none, Option.toList_some, Multiset.coe_nil,
            add_zero] at hset
          have hset2 : (held.filterMap id : Multiset T)
              = ↑((held.set w none).filterMap id) + ↑[t] := hset.symm
          have hheld := coe_filterMap_of_exchange emit _ _ t hset2
          rw [hres, hheld]
          have hout : ((out ++ (emit t).toList : List R) : Multiset R)
              = ↑out + ↑(emit t).toList := by exact_mod_cast rfl
          rw [hout]
          abel

/-- The Map emission function recovers the sequential Map loop. -/
theorem filterMap_some_eq_mapSeq {T R : Type} (fn : T → R) :
    ∀ l : List T, l.filterMap (fun t => some (fn t)) = mapSeq fn l
  | [] => rfl
  | x :: xs => by
    simp [List.filterMap_cons, mapSeq, filterMap_some_eq_mapSeq fn xs]

/-- The Filter emission function recovers the sequential Filter loop. -/
theorem filterMap_guard_eq_filterSeq {T : Type} (p : T → Bool) :
    ∀ l : List T, l.filterMap (fun t => if p t then some t else none) = filterSeq p l
  | [] => rfl
  | x :: xs => by
    cases h : p x <;>
      simp [List.filterMap_cons, filterSeq, h, filterMap_guard_eq_filterSeq p xs]

/-- C6: for any worker count N > 1, any input and any schedules under
which the parallel Map (resp. Filter) stage closes its downstream
channel — which by construction happens only after every worker has
finished draining upstream — the multiset of downstream elements equals
the multiset produced by the same stage with worker count 1: no element
is duplicated or lost. -/
theorem parallel_stage_multiset_invariance {T R : Type} (N : Int) (input : List T)
    (fn : T → R) (p : T → Bool) (actsM actsF : List PAction)
    (cM c1M : stream R) (cF c1F : stream T)
    (hN : 1 < N)
    (hM : stream.Map { source := input, workers := N } fn actsM = some cM)
    (hF : stream.Filter { source := input, workers := N } p actsF = some cF)
    (h1M : stream.Map { source := input, workers := 1 } fn [] = some c1M)
    (h1F : stream.Filter { source := input, workers := 1 } p [] = some c1F) :
    (cM.source : Multiset R) = ↑c1M.source ∧ (cF.source : Multiset T) = ↑c1F.source := by
  have hNne : ¬(N = 1) := by omega
  simp only [stream.Map, hNne, reduceIte, Option.some.injEq] at hM h1M
  simp only [stream.Filter, hNne, reduceIte, Option.some.injEq] at hF h1F
  obtain ⟨outM, hparM, hcM⟩ := Option.map_eq_some'.mp hM
  obtain ⟨outF, hparF, hcF⟩ := Option.map_eq_some'.mp hF
  have hmulM := parRun_multiset (fun t => some (fn t)) actsM input
    (List.replicate N.toNat none) [] outM hparM
  have hmulF := parRun_multiset (fun t => if p t then some t else none) actsF input
    (List.replicate N.toNat none) [] outF hparF
  rw [filterMap_id_replicate_none] at hmulM hmulF
  simp only [List.filterMap_nil, Multiset.coe_nil, zero_add] at hmulM hmulF
  constructor
  · rw [← hcM, ← h1M]
    simpa [filterMap_some_eq_mapSeq] using hmulM
  · rw [← hcF, ← h1F]
    simpa [filterMap_guard_eq_filterSeq] using hmulF

/-- Witness for C6: two workers over [1, 2, 3]; the Map schedule lets
worker 1 overtake worker 0 so the downstream order differs from the
sequential order, yet the multisets agree. -/
theorem parallel_stage_multiset_invariance_witness :
    ((([20, 10, 30] : List Nat) : Multiset Nat) = ↑([10, 20, 30] : List Nat))
    ∧ ((([1, 3] : List Nat) : Multiset Nat) = ↑([1, 3] : List Nat)) :=
  parallel_stage_multiset_invariance 2 [1, 2, 3] (fun t => t * 10)
    (fun t => t % 2 == 1)
    [PAction.take 0, PAction.take 1, PAction.put 1, PAction.put 0,
      PAction.take 1, PAction.put 1]
    [PAction.take 0, PAction.take 1, PAction.put 1, PAction.put 0,
      PAction.take 0, PAction.put 0]
    { source := [20, 10, 30], workers := 2 } { source := [10, 20, 30], workers := 1 }
    { source := [1, 3], workers := 2 } { source := [1, 3], workers := 1 }
    (by decide) (by decide) (by decide) (by decide) (by decide)
